import Mathlib

/-!
# Shallow embedding of the `rangetype` Go package

This file embeds the current `rangetype` variant of the repository
(the richest parser/engine pair: `NewRange`/`New2`, the expression
evaluator `eval`, and the `Range` engine operations `ForEach`,
`ForEachWithBreak`, `ForN`, `All`, `Take`, `Len`, `Find`, `Slice2`,
`String`).

Modelling conventions:
* Go `float64` values are modelled as exact rationals (`ℚ`).  All the
  properties below are about small integral values, where IEEE-754
  arithmetic is exact, so the rational model coincides with the Go
  behaviour.
* Go strings are modelled as `String` / `List Char`.
* A Go runtime panic (out-of-range slice index) is modelled as
  `Option.none`.
* The `rangeType` bitmask (`RANGE_INCLUDE_START`, `RANGE_EXCLUDE_START`,
  `RANGE_INCLUDE_STOP`, `RANGE_EXCLUDE_STOP`) is modelled as four
  booleans; every operation the source performs on the mask sets one
  bit and clears its opposite, which the boolean fields mirror exactly.
* `eval` is defined with an explicit recursion budget (`fuel`): every
  recursive call of the source is on a strictly shorter string except
  the one substitution pass, so `2*length+8` always suffices; the
  evaluator is only ever used at concrete inputs below, where the
  budget is checked by computation.
-/

set_option maxRecDepth 8000

deriving instance DecidableEq for Except

namespace Rangetype

/-- The Go `Range` struct: inclusivity flags, `from`, `to` and `step`
(`from`/`to` are named `rfrom`/`rto` because `from` is a Lean keyword). -/
structure Range where
  incStart : Bool
  excStart : Bool
  incStop : Bool
  excStop : Bool
  rfrom : ℚ
  rto : ℚ
  step : ℚ
deriving DecidableEq

/-- Go `abs` from the source. -/
def absF (x : ℚ) : ℚ := if x < 0 then -x else x

/-- Go `min` from the source. -/
def minF (a b : ℚ) : ℚ := if a < b then a else b

/-- Go `max` from the source. -/
def maxF (a b : ℚ) : ℚ := if a > b then a else b

/-- `almostEqual(a, b, threshold)`: `abs(a-b) < threshold`. -/
def almostEqual (a b threshold : ℚ) : Bool := decide (absF (a - b) < threshold)

/-- Go `int(x)` / `uint(x)` conversion of a float: truncation toward zero. -/
def truncF (x : ℚ) : ℤ := if x < 0 then ⌈x⌉ else ⌊x⌋

/-- The positive-step loop of `ForEach`
(`for x < r.to && x > r.from { f(x); x += r.step }`), collected as the
list of values passed to the callback. -/
def loopPos (f t s : ℚ) (hs : 0 < s) (x : ℚ) : List ℚ :=
  if x < t ∧ f < x then x :: loopPos f t s hs (x + s) else []
termination_by (⌈(t - x) / s⌉).toNat
decreasing_by
  rename_i h
  have hpos : 0 < (t - x) / s := div_pos (by linarith [h.1]) hs
  have hc : (0:ℤ) < ⌈(t - x) / s⌉ := Int.ceil_pos.mpr hpos
  have he : (t - (x + s)) / s = (t - x) / s - 1 := by
    field_simp
    ring
  have h2 : ⌈(t - (x + s)) / s⌉ = ⌈(t - x) / s⌉ - 1 := by
    rw [he, Int.ceil_sub_one]
  omega

/-- The negative-step loop of `ForEach`
(`for x > r.to && x < r.from { f(x); x += r.step }`). -/
def loopNeg (f t s : ℚ) (hs : s < 0) (x : ℚ) : List ℚ :=
  if x > t ∧ x < f then x :: loopNeg f t s hs (x + s) else []
termination_by (⌈(x - t) / (-s)⌉).toNat
decreasing_by
  rename_i h
  have hns : 0 < -s := by linarith
  have hsne : s ≠ 0 := ne_of_lt hs
  have hpos : 0 < (x - t) / (-s) := div_pos (by linarith [h.1]) hns
  have hc : (0:ℤ) < ⌈(x - t) / (-s)⌉ := Int.ceil_pos.mpr hpos
  have he : (x + s - t) / (-s) = (x - t) / (-s) - 1 := by
    field_simp
    ring
  have h2 : ⌈(x + s - t) / (-s)⌉ = ⌈(x - t) / (-s)⌉ - 1 := by
    rw [he, Int.ceil_sub_one]
  omega

/-- The optional first value of `ForEach`: the source emits `x := r.from`
when start-inclusive (the `x == r.from` test of the source is kept). -/
def startList (r : Range) : List ℚ :=
  if r.incStart ∧ r.rfrom = r.rfrom then [r.rfrom] else []

/-- The values emitted by the stepping loops of `ForEach` (starting at
`r.from + r.step`; no values when `step == 0` since both loop guards fail). -/
def loopList (r : Range) : List ℚ :=
  if hs : 0 < r.step then loopPos r.rfrom r.rto r.step hs (r.rfrom + r.step)
  else if hs2 : r.step < 0 then loopNeg r.rfrom r.rto r.step hs2 (r.rfrom + r.step)
  else []

/-- The optional last value of `ForEach`: `f(r.to)` when stop-inclusive,
emitted unconditionally. -/
def stopList (r : Range) : List ℚ :=
  if r.incStop then [r.rto] else []

/-- The full sequence of values `ForEach` passes to its callback, in order. -/
def ForEachList (r : Range) : List ℚ :=
  startList r ++ loopList r ++ stopList r

/-- `All()`: collects the `ForEach` values into a slice. -/
def All (r : Range) : List ℚ := ForEachList r

/-- `Len()`: a closed form `uint(max-min)` when `step == 1.0`, otherwise
counting the `ForEach` iterations. -/
def Len (r : Range) : ℕ :=
  if r.step = 1 then (truncF (maxF r.rfrom r.rto - minF r.rfrom r.rto)).toNat
  else (ForEachList r).length

/-- The positive-step loop of `ForN`: emits, increments the counter, and
returns early (second component `true`) once `counter >= n`. -/
def loopPosN (f t s : ℚ) (hs : 0 < s) (n : ℤ) (x : ℚ) (c : ℤ) : List ℚ × Bool :=
  if x < t ∧ f < x then
    if n ≤ c + 1 then ([x], true)
    else
      let p := loopPosN f t s hs n (x + s) (c + 1)
      (x :: p.1, p.2)
  else ([], false)
termination_by (⌈(t - x) / s⌉).toNat
decreasing_by
  rename_i h _
  have hpos : 0 < (t - x) / s := div_pos (by linarith [h.1]) hs
  have hc : (0:ℤ) < ⌈(t - x) / s⌉ := Int.ceil_pos.mpr hpos
  have he : (t - (x + s)) / s = (t - x) / s - 1 := by
    field_simp
    ring
  have h2 : ⌈(t - (x + s)) / s⌉ = ⌈(t - x) / s⌉ - 1 := by
    rw [he, Int.ceil_sub_one]
  omega

/-- The negative-step loop of `ForN`. -/
def loopNegN (f t s : ℚ) (hs : s < 0) (n : ℤ) (x : ℚ) (c : ℤ) : List ℚ × Bool :=
  if x > t ∧ x < f then
    if n ≤ c + 1 then ([x], true)
    else
      let p := loopNegN f t s hs n (x + s) (c + 1)
      (x :: p.1, p.2)
  else ([], false)
termination_by (⌈(x - t) / (-s)⌉).toNat
decreasing_by
  rename_i h _
  have hns : 0 < -s := by linarith
  have hsne : s ≠ 0 := ne_of_lt hs
  have hpos : 0 < (x - t) / (-s) := div_pos (by linarith [h.1]) hns
  have hc : (0:ℤ) < ⌈(x - t) / (-s)⌉ := Int.ceil_pos.mpr hpos
  have he : (x + s - t) / (-s) = (x - t) / (-s) - 1 := by
    field_simp
    ring
  have h2 : ⌈(x + s - t) / (-s)⌉ = ⌈(x - t) / (-s)⌉ - 1 := by
    rw [he, Int.ceil_sub_one]
  omega

/-- The stepping loops of `ForN`, entered with counter value `c`. -/
def loopListN (r : Range) (n c : ℤ) : List ℚ × Bool :=
  if hs : 0 < r.step then loopPosN r.rfrom r.rto r.step hs n (r.rfrom + r.step) c
  else if hs2 : r.step < 0 then loopNegN r.rfrom r.rto r.step hs2 n (r.rfrom + r.step) c
  else ([], false)

/-- The part of `ForN` after the optional start emission: the loops, then
(unless the counter caused an early return) the optional stop emission. -/
def forNRest (r : Range) (n c : ℤ) : List ℚ :=
  let p := loopListN r n c
  if p.2 then p.1 else p.1 ++ stopList r

/-- The full sequence of values `ForN(n, f)` passes to its callback: the
source emits the start value first (when start-inclusive) and returns at
once if the counter, now 1, already reached `n`. -/
def ForNList (r : Range) (n : ℤ) : List ℚ :=
  if r.incStart ∧ r.rfrom = r.rfrom then
    if n ≤ 1 then [r.rfrom]
    else r.rfrom :: forNRest r n 1
  else forNRest r n 0

/-- `Take(n)`: collects the `ForN` values into a slice. -/
def Take (r : Range) (n : ℤ) : List ℚ := ForNList r n

/-- The positive-step loop of `ForEachWithBreak`: the callback threads a
state and returns `true` to break. Result: final state and whether a
break happened. -/
def loopPosB {σ : Type} (f t s : ℚ) (hs : 0 < s) (g : σ → ℚ → σ × Bool)
    (x : ℚ) (st : σ) : σ × Bool :=
  if x < t ∧ f < x then
    let p := g st x
    if p.2 then (p.1, true)
    else loopPosB f t s hs g (x + s) p.1
  else (st, false)
termination_by (⌈(t - x) / s⌉).toNat
decreasing_by
  rename_i h _
  have hpos : 0 < (t - x) / s := div_pos (by linarith [h.1]) hs
  have hc : (0:ℤ) < ⌈(t - x) / s⌉ := Int.ceil_pos.mpr hpos
  have he : (t - (x + s)) / s = (t - x) / s - 1 := by
    field_simp
    ring
  have h2 : ⌈(t - (x + s)) / s⌉ = ⌈(t - x) / s⌉ - 1 := by
    rw [he, Int.ceil_sub_one]
  omega

/-- The negative-step loop of `ForEachWithBreak`. -/
def loopNegB {σ : Type} (f t s : ℚ) (hs : s < 0) (g : σ → ℚ → σ × Bool)
    (x : ℚ) (st : σ) : σ × Bool :=
  if x > t ∧ x < f then
    let p := g st x
    if p.2 then (p.1, true)
    else loopNegB f t s hs g (x + s) p.1
  else (st, false)
termination_by (⌈(x - t) / (-s)⌉).toNat
decreasing_by
  rename_i h _
  have hns : 0 < -s := by linarith
  have hsne : s ≠ 0 := ne_of_lt hs
  have hpos : 0 < (x - t) / (-s) := div_pos (by linarith [h.1]) hns
  have hc : (0:ℤ) < ⌈(x - t) / (-s)⌉ := Int.ceil_pos.mpr hpos
  have he : (x + s - t) / (-s) = (x - t) / (-s) - 1 := by
    field_simp
    ring
  have h2 : ⌈(x + s - t) / (-s)⌉ = ⌈(x - t) / (-s)⌉ - 1 := by
    rw [he, Int.ceil_sub_one]
  omega

/-- The stepping loops of `ForEachWithBreak`. -/
def loopListB {σ : Type} (r : Range) (g : σ → ℚ → σ × Bool) (st : σ) : σ × Bool :=
  if hs : 0 < r.step then loopPosB r.rfrom r.rto r.step hs g (r.rfrom + r.step) st
  else if hs2 : r.step < 0 then loopNegB r.rfrom r.rto r.step hs2 g (r.rfrom + r.step) st
  else (st, false)

/-- The start emission of `ForEachWithBreak` (state after the optional
`f(x)` call and whether it broke; `(s0, false)` when start is not
inclusive). -/
def startStepB {σ : Type} (r : Range) (g : σ → ℚ → σ × Bool) (s0 : σ) : σ × Bool :=
  if r.incStart ∧ r.rfrom = r.rfrom then g s0 r.rfrom else (s0, false)

/-- `ForEachWithBreak(f)`: like `ForEach` but the callback may break; the
callback's captured variables are modelled as the threaded state `σ`.
The final `f(r.to)` call of the source has nothing to break out of, so
its break flag is discarded. -/
def ForEachWithBreak {σ : Type} (r : Range) (g : σ → ℚ → σ × Bool) (s0 : σ) : σ :=
  if (startStepB r g s0).2 then (startStepB r g s0).1
  else if (loopListB r g (startStepB r g s0).1).2 then (loopListB r g (startStepB r g s0).1).1
  else if r.incStop then (g (loopListB r g (startStepB r g s0).1).1 r.rto).1
  else (loopListB r g (startStepB r g s0).1).1

/-- The callback of `Find`: on the first range value `almostEqual` to `x`
it records `(found, foundValue)` and breaks. -/
def findStep (x threshold : ℚ) (st : Bool × ℚ) (v : ℚ) : (Bool × ℚ) × Bool :=
  if almostEqual x v threshold then ((true, v), true) else (st, false)

/-- `Find(x, threshold)`: searches the iterated range, starting from
`found = false`, `foundValue = -1.0`. -/
def Find (r : Range) (x threshold : ℚ) : Bool × ℚ :=
  ForEachWithBreak r (findStep x threshold) (false, -1)

/-- One callback step of `Slice2`: `pos := int(x); if pos < len(nums) {
selection = append(selection, nums[pos]) }`.  `none` models the Go panic
`index out of range` (the source never guards `pos` from below). -/
def slice2Step (nums : List ℚ) (acc : Option (List ℚ)) (x : ℚ) : Option (List ℚ) :=
  match acc with
  | none => none
  | some sel =>
    let pos := truncF x
    if pos < (nums.length : ℤ) then
      if 0 ≤ pos then
        match nums.get? pos.toNat with
        | some v => some (sel ++ [v])
        | none => none
      else none
    else some sel

/-- The two bracket characters of `String()`: `(`/`[` by the
start-exclusive flag, `)`/`]` by the stop-exclusive flag. -/
def leftBracket (r : Range) : String := if r.excStart then "(" else "["

/-- The closing bracket of `String()`. -/
def rightBracket (r : Range) : String := if r.excStop then ")" else "]"

/- ## String utilities used by `eval` and `NewRange`
(`strings.HasPrefix`, `strings.Count`, `strings.SplitN`, `rsplit`,
`strings.Replace`, `strings.TrimSpace`, `strconv.ParseFloat`). -/

/-- `strings.HasPrefix` on character lists. -/
def startsWithL : List Char → List Char → Bool
  | [], _ => true
  | _ :: _, [] => false
  | p :: ps, c :: cs => p = c && startsWithL ps cs

/-- `strings.HasSuffix` on character lists. -/
def endsWithL (suf s : List Char) : Bool := startsWithL suf.reverse s.reverse

/-- The scanning recursion of `strings.Count`, made structural on a depth
budget (the list length always suffices, since each step consumes at
least one character). -/
def countSubF (sep : List Char) : ℕ → List Char → ℕ
  | 0, _ => 0
  | _, [] => 0
  | fuel + 1, c :: cs =>
    if startsWithL sep (c :: cs) then 1 + countSubF sep fuel (List.drop (sep.length - 1) cs)
    else countSubF sep fuel cs

/-- `strings.Count` for a non-empty separator: non-overlapping occurrences. -/
def countSub (sep s : List Char) : ℕ := countSubF sep s.length s

/-- `strings.Contains` for a non-empty substring. -/
def containsSub (sep s : List Char) : Bool := decide (0 < countSub sep s)

/-- Split at the first occurrence of `sep`
(`strings.SplitN(s, sep, 2)` when `sep` occurs; `none` otherwise). -/
def splitFirst (sep : List Char) : List Char → Option (List Char × List Char)
  | [] => none
  | c :: cs =>
    if startsWithL sep (c :: cs) then some ([], List.drop sep.length (c :: cs))
    else
      match splitFirst sep cs with
      | some p => some (c :: p.1, p.2)
      | none => none

/-- `rsplit(s, sep)`: the source reverses `s`, splits at the first
occurrence of `sep`, and reverses both halves back — i.e. a split at the
last occurrence for a one-character separator.  `none` models the index
panic the source would hit when `sep` does not occur. -/
def rsplitL (sep s : List Char) : Option (List Char × List Char) :=
  match splitFirst sep s.reverse with
  | some p => some (p.2.reverse, p.1.reverse)
  | none => none

/-- The scanning recursion of `strings.Replace`, made structural on a
depth budget exactly like `countSubF`. -/
def replaceAllF (old new : List Char) : ℕ → List Char → List Char
  | 0, _ => []
  | _, [] => []
  | fuel + 1, c :: cs =>
    if startsWithL old (c :: cs) then new ++ replaceAllF old new fuel (List.drop (old.length - 1) cs)
    else c :: replaceAllF old new fuel cs

/-- `strings.Replace(s, old, new, -1)` for a non-empty `old`. -/
def replaceAll (old new s : List Char) : List Char := replaceAllF old new s.length s

/-- Whitespace characters trimmed by `strings.TrimSpace` (the ASCII
subset; the inputs of this package contain no exotic whitespace). -/
def isSpaceG (c : Char) : Bool := c = ' ' || c = '\t' || c = '\n' || c = '\r'

/-- `strings.TrimSpace`. -/
def trimSpace (s : List Char) : List Char :=
  ((s.dropWhile isSpaceG).reverse.dropWhile isSpaceG).reverse

/-- Decimal digit test. -/
def isDigit (c : Char) : Bool := '0' ≤ c && c ≤ '9'

/-- The value of one decimal digit (table form, so that proofs reduce it
by deciding character equalities). -/
def digitVal (c : Char) : ℕ :=
  if c = '0' then 0 else if c = '1' then 1 else if c = '2' then 2
  else if c = '3' then 3 else if c = '4' then 4 else if c = '5' then 5
  else if c = '6' then 6 else if c = '7' then 7 else if c = '8' then 8
  else if c = '9' then 9 else 0

/-- The value of a decimal digit string. -/
def digitsVal (s : List Char) : ℕ := s.foldl (fun a c => a * 10 + digitVal c) 0

/-- `strconv.ParseFloat(s, 64)`, modelled exactly for the decimal-literal
forms `[+-]? digits [. digits]? [(e|E) [+-]? digits]?` (with at least one
mantissa digit) that this package's range expressions use; the exotic
accepted forms (hex floats, `inf`, `NaN`, underscores) are not modelled. -/
def parseFloat (s : List Char) : Option ℚ :=
  let sp : ℚ × List Char :=
    match s with
    | '-' :: rest => (-1, rest)
    | '+' :: rest => (1, rest)
    | _ => (1, s)
  let mx : List Char × Option (List Char) :=
    match splitFirst ['e'] sp.2 with
    | some p => (p.1, some p.2)
    | none =>
      match splitFirst ['E'] sp.2 with
      | some p => (p.1, some p.2)
      | none => (sp.2, none)
  let ipfp : List Char × List Char :=
    match splitFirst ['.'] mx.1 with
    | some p => (p.1, p.2)
    | none => (mx.1, [])
  let exVal : Option ℤ :=
    match mx.2 with
    | none => some 0
    | some e =>
      let esp : ℤ × List Char :=
        match e with
        | '-' :: rest => (-1, rest)
        | '+' :: rest => (1, rest)
        | _ => (1, e)
      if 0 < esp.2.length ∧ esp.2.all isDigit then some (esp.1 * (digitsVal esp.2 : ℤ))
      else none
  match exVal with
  | none => none
  | some ev =>
    if ipfp.1.all isDigit ∧ ipfp.2.all isDigit ∧ 0 < ipfp.1.length + ipfp.2.length then
      some (sp.1 * ((digitsVal ipfp.1 : ℚ) + (digitsVal ipfp.2 : ℚ) / 10 ^ ipfp.2.length)
        * (10 : ℚ) ^ ev)
    else none

/-- `math.Pow`, modelled on rationals for integer exponents (the only
exponents the package's range literals produce). A non-integral exponent
has no rational power in general and is mapped to 0; no evaluation below
reaches that case. -/
def powF (a b : ℚ) : ℚ := if b.den = 1 then a ^ b.num else 0

/-- Go `MaxInt` (`^uint(0) >> 1` on a 64-bit platform). -/
def MaxInt : ℤ := 9223372036854775807

/-- `strconv.Itoa(MaxInt)`. -/
def maxIntStr : List Char := "9223372036854775807".toList

/-- The symbolic Ada token replaced by `MaxInt` in algebraic mode. -/
def integerLastToken : List Char := "Integer\x27Last".toList

/-- The common tail of `eval`: the `**`, `+` and `-` first-occurrence
splits and the final `ParseFloat`; `ev` is the recursive evaluation of
sub-expressions (`retval` is still 0 when these branches run, so
`retval += …; return` is a plain return of the computed value). -/
def evalTail (ev : List Char → Except String ℚ) (exp : List Char) : Except String ℚ :=
  if 0 < countSub ['*', '*'] exp then
    match splitFirst ['*', '*'] exp with
    | none => .error "UNREACHABLE"
    | some lr =>
      match ev lr.1 with
      | .error e => .error ("INVALID VALUE: " ++ String.mk lr.1 ++ " IN " ++ e)
      | .ok a =>
        match ev lr.2 with
        | .error e => .error ("INVALID VALUE: " ++ String.mk lr.2 ++ " IN " ++ e)
        | .ok b => .ok (powF a b)
  else if 0 < countSub ['+'] exp then
    match splitFirst ['+'] exp with
    | none => .error "UNREACHABLE"
    | some lr =>
      match ev lr.1 with
      | .error e => .error ("INVALID VALUE: " ++ String.mk lr.1 ++ " IN " ++ e)
      | .ok a =>
        match ev lr.2 with
        | .error e => .error ("INVALID VALUE: " ++ String.mk lr.2 ++ " IN " ++ e)
        | .ok b => .ok (a + b)
  else if 0 < countSub ['-'] exp then
    match splitFirst ['-'] exp with
    | none => .error "UNREACHABLE"
    | some lr =>
      match ev lr.1 with
      | .error e => .error ("INVALID VALUE: " ++ String.mk lr.1 ++ " IN " ++ e)
      | .ok a =>
        match ev lr.2 with
        | .error e => .error ("INVALID VALUE: " ++ String.mk lr.2 ++ " IN " ++ e)
        | .ok b => .ok (a - b)
  else
    match parseFloat exp with
    | some x => .ok x
    | none => .error ("INVALID VALUE: " ++ String.mk exp)

/-- `eval(exp, ada)` with an explicit recursion budget.  The branch order
follows the source exactly: empty check, unary-minus prefix, then the
`ada` block (lone `-`, parenthesis balance, `Integer'Last` substitution,
`(...)`-group evaluation) or the default-mode `~` suffix, then the
common tail. -/
def evalF : ℕ → List Char → Bool → Except String ℚ
  | 0, _, _ => .error "OUT OF FUEL"
  | fuel + 1, exp, ada =>
    if trimSpace exp = [] then .ok 0
    else if startsWithL ['-'] exp then
      match evalF fuel (exp.drop 1) ada with
      | .error e => .error e
      | .ok v => .ok (-1 * v)
    else if ada then
      if trimSpace exp = ['-'] then .ok (-1)
      else if countSub ['('] exp ≠ countSub [')'] exp then
        .error ("Unbalanced expression: " ++ String.mk exp)
      else
        let exp1 := if containsSub integerLastToken exp then
          replaceAll integerLastToken maxIntStr exp else exp
        if 0 < countSub ['('] exp1 ∧ 0 < countSub [')'] exp1 then
          match splitFirst ['('] exp1 with
          | none => .error "UNREACHABLE"
          | some lrest =>
            match rsplitL [')'] lrest.2 with
            | none => .error "PANIC"
            | some cr =>
              match evalF fuel cr.1 ada with
              | .error e => .error e
              | .ok cv =>
                match evalF fuel lrest.1 ada with
                | .error e => .error e
                | .ok lv =>
                  match evalF fuel cr.2 ada with
                  | .error e => .error e
                  | .ok rv => .ok (lv + cv + rv)
        else evalTail (fun p => evalF fuel p ada) exp1
    else
      if endsWithL ['~'] exp then
        match evalF fuel exp.dropLast ada with
        | .error e => .error e
        | .ok v => .ok (v - 1)
      else evalTail (fun p => evalF fuel p ada) exp

/-- `eval` at its standard budget. -/
def evalE (exp : List Char) (ada : Bool) : Except String ℚ :=
  evalF (2 * exp.length + 8) exp ada

/-- One step of the character scan of `NewRange`: whitespace is skipped,
brackets set one inclusivity flag and clear its opposite (in algebraic
mode parentheses are ordinary content), everything else accumulates into
`contents`. -/
def scanChar (ada : Bool) (acc : Range × List Char) (c : Char) : Range × List Char :=
  if c = ' ' then acc
  else if c = '\t' then acc
  else if c = '\n' then acc
  else if c = '[' then ({ acc.1 with incStart := true, excStart := false }, acc.2)
  else if c = ']' then ({ acc.1 with incStop := true, excStop := false }, acc.2)
  else if c = '(' then
    if ada then (acc.1, acc.2 ++ [c])
    else ({ acc.1 with excStart := true, incStart := false }, acc.2)
  else if c = ')' then
    if ada then (acc.1, acc.2 ++ [c])
    else ({ acc.1 with excStop := true, incStop := false }, acc.2)
  else (acc.1, acc.2 ++ [c])

/-- The bound/step evaluation at the end of `NewRange`: an empty left
bound is `0.0` without evaluation, an empty right bound is
`MISSING RANGE VALUES`, and a non-empty step expression overrides the
default step `1.0` already stored in `r`. -/
def finishRange (r : Range) (left right stepStr : List Char) (ada : Bool) :
    Except String Range :=
  match (if left = [] then Except.ok (0 : ℚ) else evalE left ada) with
  | .error e => .error ("INVALID RANGE VALUE: " ++ String.mk stepStr ++ ", " ++ e)
  | .ok fromV =>
    if right = [] then .error "MISSING RANGE VALUES"
    else
      match evalE right ada with
      | .error e => .error ("INVALID RANGE VALUE: " ++ String.mk stepStr ++ ", " ++ e)
      | .ok toV =>
        if stepStr ≠ [] then
          match evalE stepStr ada with
          | .error e => .error ("INVALID STEP SIZE: " ++ String.mk stepStr ++ ", " ++ e)
          | .ok stepV => .ok { r with rfrom := fromV, rto := toV, step := stepV }
        else .ok { r with rfrom := fromV, rto := toV }

/-- `NewRange(rangeExpression, ada)`: the grammar parser.  Splits off a
`" step "` suffix, scans the body character by character, classifies the
accumulated contents by separator (`..` interval style with
inclusive-unless-explicitly-exclusive defaults; one `,` math style with
no defaults; one or two `:` slice style whose defaults are applied when
the corresponding INCLUDE flag is unset), then evaluates the bounds. -/
def NewRange (rangeExpression : String) (ada : Bool) : Except String Range :=
  let stepSep := " step ".toList
  let bodyStep : List Char × List Char :=
    if containsSub stepSep rangeExpression.toList then
      match splitFirst stepSep rangeExpression.toList with
      | some p => (p.1, p.2)
      | none => (rangeExpression.toList, [])
    else (rangeExpression.toList, [])
  let scanned := bodyStep.1.foldl (scanChar ada) (⟨false, false, false, false, 0, 0, 1⟩, [])
  let r1 := scanned.1
  let contents := scanned.2
  if countSub ['.', '.'] contents = 1 then
    match splitFirst ['.', '.'] contents with
    | none => .error "INVALID RANGE SYNTAX"
    | some lr =>
      let r2 := if ¬ r1.excStart then { r1 with incStart := true, excStart := false } else r1
      let r3 := if ¬ r2.excStop then { r2 with incStop := true, excStop := false } else r2
      finishRange r3 (trimSpace lr.1) (trimSpace lr.2) bodyStep.2 ada
  else if countSub [','] contents = 1 then
    match splitFirst [','] contents with
    | none => .error "INVALID RANGE SYNTAX"
    | some lr => finishRange r1 lr.1 lr.2 bodyStep.2 ada
  else if countSub [':'] contents = 1 then
    match splitFirst [':'] contents with
    | none => .error "INVALID RANGE SYNTAX"
    | some lr =>
      let r2 := if ¬ r1.incStart then { r1 with incStart := true, excStart := false } else r1
      let r3 := if ¬ r2.incStop then { r2 with excStop := true, incStop := false } else r2
      finishRange r3 lr.1 lr.2 bodyStep.2 ada
  else if countSub [':'] contents = 2 then
    match splitFirst [':'] contents with
    | none => .error "INVALID RANGE SYNTAX"
    | some lrest =>
      match splitFirst [':'] lrest.2 with
      | none => .error "INVALID RANGE SYNTAX"
      | some mst =>
        let stepStr := if bodyStep.2 = [] then mst.2 else bodyStep.2
        let r2 := if ¬ r1.incStart then { r1 with incStart := true, excStart := false } else r1
        let r3 := if ¬ r2.incStop then { r2 with excStop := true, incStop := false } else r2
        finishRange r3 lrest.1 mst.1 stepStr ada
  else .error "INVALID RANGE SYNTAX"

/-- `New2`: the default-mode entry point. -/
def New2 (rangeExpression : String) : Except String Range :=
  NewRange rangeExpression false

/-- `Slice2(nums, expression)`: parses, then iterates the descriptor
indexing into `nums`. The outer `Except` is the parse error; the inner
`none` is a runtime panic on a negative index. -/
def Slice2 (nums : List ℚ) (expression : String) : Except String (Option (List ℚ)) :=
  match New2 expression with
  | .error e => .error e
  | .ok r => .ok ((ForEachList r).foldl (slice2Step nums) (some []))

/-- Proof-side helper (not from the source): a breakable fold over an
explicit list of values, used to relate `ForEachWithBreak` to the
`ForEach` value sequence. -/
def stopFoldB {σ : Type} (g : σ → ℚ → σ × Bool) : σ → List ℚ → σ × Bool
  | st, [] => (st, false)
  | st, v :: vs =>
    let p := g st v
    if p.2 then (p.1, true) else stopFoldB g p.1 vs

end Rangetype



/-! ## Theorems

Helper lemmas first (loop unfolding, concrete enumerations, the
`ForN`/`take` and `ForEachWithBreak`/fold bridges), then one theorem per
claim of the specification review. -/

namespace Rangetype

theorem loopPos_cons (f t s : ℚ) (hs : 0 < s) (x : ℚ) (hx : x < t ∧ f < x) :
    loopPos f t s hs x = x :: loopPos f t s hs (x + s) := by
  rw [loopPos, if_pos hx]

theorem loopPos_nil (f t s : ℚ) (hs : 0 < s) (x : ℚ) (hx : ¬(x < t ∧ f < x)) :
    loopPos f t s hs x = [] := by
  rw [loopPos, if_neg hx]

theorem loopNeg_cons (f t s : ℚ) (hs : s < 0) (x : ℚ) (hx : x > t ∧ x < f) :
    loopNeg f t s hs x = x :: loopNeg f t s hs (x + s) := by
  rw [loopNeg, if_pos hx]

theorem loopNeg_nil (f t s : ℚ) (hs : s < 0) (x : ℚ) (hx : ¬(x > t ∧ x < f)) :
    loopNeg f t s hs x = [] := by
  rw [loopNeg, if_neg hx]

/-- `All` of the descriptor parsed from `"[0,1]"`. -/
theorem all_01 : All ⟨true, false, true, false, 0, 1, 1⟩ = [0, 1] := by
  norm_num [All, ForEachList, startList, loopList, stopList]
  rw [loopPos_nil _ _ _ _ _ (by norm_num)]

/-- `All` of the descriptor parsed from `"[4:2:-3]"` (both ends inclusive). -/
theorem all_42m3_ii : All ⟨true, false, true, false, 4, 2, -3⟩ = [4, 2] := by
  norm_num [All, ForEachList, startList, loopList, stopList]
  rw [loopNeg_nil _ _ _ _ _ (by norm_num)]

/-- `All` of the descriptor parsed from `"[4:2:-3"` (stop exclusive). -/
theorem all_42m3_ie : All ⟨true, false, false, true, 4, 2, -3⟩ = [4] := by
  norm_num [All, ForEachList, startList, loopList, stopList]
  rw [loopNeg_nil _ _ _ _ _ (by norm_num)]

/-- `ForEach` values of the descriptor parsed from `"-2..1"`. -/
theorem all_m2to1 : ForEachList ⟨true, false, true, false, -2, 1, 1⟩ = [-2, -1, 0, 1] := by
  norm_num [ForEachList, startList, loopList, stopList]
  rw [loopPos_cons _ _ _ _ _ (by norm_num), loopPos_cons _ _ _ _ _ (by norm_num),
    loopPos_nil _ _ _ _ _ (by norm_num)]
  norm_num

/-- `All` of the descriptor parsed from `"(1:3)"`. -/
theorem all_13_c4 : All ⟨true, false, false, true, 1, 3, 1⟩ = [1, 2] := by
  norm_num [All, ForEachList, startList, loopList, stopList]
  rw [loopPos_cons _ _ _ _ _ (by norm_num), loopPos_nil _ _ _ _ _ (by norm_num)]

/-- `All` of the descriptor parsed from `"0,5"`. -/
theorem all_05 : All ⟨false, false, false, false, 0, 5, 1⟩ = [1, 2, 3, 4] := by
  norm_num [All, ForEachList, startList, loopList, stopList]
  rw [loopPos_cons _ _ _ _ _ (by norm_num), loopPos_cons _ _ _ _ _ (by norm_num),
    loopPos_cons _ _ _ _ _ (by norm_num), loopPos_cons _ _ _ _ _ (by norm_num),
    loopPos_nil _ _ _ _ _ (by norm_num)]
  norm_num

/-- C1: the claim asserts `Len() = b - a + 1` and `All()` of length
`b - a + 1` for the inclusive-inclusive step-1 range `[a,b]`.  On the
code, `Len` takes the `step == 1.0` shortcut `uint(max-min)` and returns
`b - a`, while `All` does enumerate `b - a + 1` values: at the parsed
input `"[0,1]"`, `Len` returns 1 but `All` returns the 2 values [0, 1].
This contradicts `Len`'s own doc comment ("returns the length of the
range by iterating over it") and the spec's §8 property. -/
theorem c1_len_bug :
    (NewRange "[0,1]" false).map Len = .ok 1 ∧
    (NewRange "[0,1]" false).map All = .ok [0, 1] := by
  constructor
  · with_unfolding_all decide
  · rw [show NewRange "[0,1]" false = .ok ⟨true, false, true, false, 0, 1, 1⟩ from by
      with_unfolding_all decide]
    simp only [Except.map]
    rw [all_01]

/-- C2 counterexample: the claim asserts `All` of the descriptor parsed
from `"[4:2:-3]"` is exactly `[4.0]`; on the code the explicit `]` makes
the stop inclusive, and the inclusive stop value 2 is unconditionally
emitted last, so `All` is `[4, 2] ≠ [4]`. -/
theorem c2_counterexample :
    (NewRange "[4:2:-3]" false).map All = .ok [4, 2] ∧ ([4, 2] : List ℚ) ≠ [4] := by
  constructor
  · rw [show NewRange "[4:2:-3]" false = .ok ⟨true, false, true, false, 4, 2, -3⟩ from by
      with_unfolding_all decide]
    simp only [Except.map]
    rw [all_42m3_ii]
  · simp

/-- C2 (amended): `"[4:2:-3]"` (explicit inclusive stop) enumerates
`[4, 2]`; the expression that enumerates exactly `{4}` is `"[4:2:-3"`,
whose stop stays exclusive by the slice-style default — the input the
repository's own test uses. -/
theorem c2_amended_thm :
    (NewRange "[4:2:-3" false).map All = .ok [4] ∧
    (NewRange "[4:2:-3]" false).map All = .ok [4, 2] := by
  constructor
  · rw [show NewRange "[4:2:-3" false = .ok ⟨true, false, false, true, 4, 2, -3⟩ from by
      with_unfolding_all decide]
    simp only [Except.map]
    rw [all_42m3_ie]
  · rw [show NewRange "[4:2:-3]" false = .ok ⟨true, false, true, false, 4, 2, -3⟩ from by
      with_unfolding_all decide]
    simp only [Except.map]
    rw [all_42m3_ii]

/-- C3: whenever the stop-inclusive flag is set (and the step is nonzero,
as the claim stipulates), `ForEach` emits the literal bound `to` as its
final value, unconditionally — the source appends `f(r.to)` after the
loops with no range check. -/
theorem c3_stop_always_emitted (r : Range) (h : r.incStop = true) (_hs : r.step ≠ 0) :
    All r ≠ [] ∧ (All r).getLast? = some r.rto := by
  have hall : All r = (startList r ++ loopList r) ++ [r.rto] := by
    rw [All, ForEachList, stopList, if_pos h]
  rw [hall]
  constructor
  · simp
  · rw [List.getLast?_concat]

/-- C3 witness: the stepped sequence from 4 by -3 never reaches 2, yet
the inclusive stop 2 is still emitted last. -/
theorem c3_witness :
    All ⟨true, false, true, false, 4, 2, -3⟩ ≠ [] ∧
    (All ⟨true, false, true, false, 4, 2, -3⟩).getLast? = some 2 :=
  c3_stop_always_emitted ⟨true, false, true, false, 4, 2, -3⟩ rfl (by norm_num)

/-- C4: the claim asserts an explicit `(` always survives the
separator-style defaults; on the code, parsing `"(1:3)"` (slice style)
re-sets the start to INCLUSIVE, because the slice-style guard tests the
`RANGE_INCLUDE_START` flag — which is unset exactly when `(` cleared it —
so the style default overwrites the explicit marker: the parsed
descriptor has `incStart = true`, `excStart = false`, and `All` is
`[1, 2]` (1 included).  This contradicts the source's own comment
("if not already set in the switch above") and the spec's first-writer-wins
invariant. -/
theorem c4_paren_overridden :
    (NewRange "(1:3)" false).map (fun r => (r.incStart, r.excStart)) = .ok (true, false) ∧
    (NewRange "(1:3)" false).map All = .ok [1, 2] := by
  constructor
  · with_unfolding_all decide
  · rw [show NewRange "(1:3)" false = .ok ⟨true, false, false, true, 1, 3, 1⟩ from by
      with_unfolding_all decide]
    simp only [Except.map]
    rw [all_13_c4]

/-- C5: the claim asserts `Slice2` silently skips out-of-bounds indices,
including negative ones.  On the code the callback only guards
`pos < len(nums)`, so the value -2 produced by iterating `"-2..1"`
reaches `nums[-2]` and panics (modelled as `none`). -/
theorem c5_slice2_panics : Slice2 [1] "-2..1" = .ok none := by
  rw [Slice2]
  rw [show New2 "-2..1" = .ok ⟨true, false, true, false, -2, 1, 1⟩ from by
    with_unfolding_all decide]
  show Except.ok (List.foldl (slice2Step [1]) (some [])
    (ForEachList ⟨true, false, true, false, -2, 1, 1⟩)) = Except.ok none
  rw [all_m2to1]
  with_unfolding_all decide

/-- C6 counterexample: the claim asserts math style with no explicit
markers iterates inclusively on both sides (`All("0,5") = {0,…,5}`); on
the code the math-style branch sets no flags at all, `ForEach` emits the
start only when `RANGE_INCLUDE_START` is set and the stop only when
`RANGE_INCLUDE_STOP` is set, so both endpoints are dropped:
`All("0,5") = [1, 2, 3, 4]`. -/
theorem c6_counterexample :
    (NewRange "0,5" false).map All = .ok [1, 2, 3, 4] ∧
    ([1, 2, 3, 4] : List ℚ) ≠ [0, 1, 2, 3, 4, 5] := by
  constructor
  · rw [show NewRange "0,5" false = .ok ⟨false, false, false, false, 0, 5, 1⟩ from by
      with_unfolding_all decide]
    simp only [Except.map]
    rw [all_05]
  · simp

/-- C6 (amended): the descriptor parsed from `"0,5"` has all four
inclusivity flags unset; `String()` still formats it with `[` and `]`
(the brackets are chosen by the absence of the EXCLUDE flags), but
iteration emits neither endpoint: `All("0,5") = [1, 2, 3, 4]`. -/
theorem c6_amended_thm :
    NewRange "0,5" false = .ok ⟨false, false, false, false, 0, 5, 1⟩ ∧
    leftBracket ⟨false, false, false, false, 0, 5, 1⟩ = "[" ∧
    rightBracket ⟨false, false, false, false, 0, 5, 1⟩ = "]" ∧
    All ⟨false, false, false, false, 0, 5, 1⟩ = [1, 2, 3, 4] := by
  refine ⟨by with_unfolding_all decide, rfl, rfl, all_05⟩

/-- C8: the claim asserts `eval("-")` in algebraic (ada) mode returns -1.
On the code the unary-minus prefix rule runs first: it strips the `-`,
evaluates the empty remainder to 0 and negates, returning 0; the ada
branch `TrimSpace(exp) == "-" → -1` is unreachable for the literal input
`"-"` (it is reached only with surrounding whitespace, e.g. `" -"`),
which shows the -1 intent the claim describes. -/
theorem c8_lone_minus :
    evalE "-".toList true = .ok 0 ∧ evalE " -".toList true = .ok (-1) := by
  constructor <;> with_unfolding_all decide

/-- C9: a zero-step descriptor iterates without looping forever: both
stepping-loop guards (`step > 0`, `step < 0`) fail, so `ForEach` emits at
most the start value (when start-inclusive) and the stop value (when
stop-inclusive) and nothing else. -/
theorem c9_step_zero (r : Range) (h : r.step = 0) :
    All r = (if r.incStart then [r.rfrom] else []) ++ (if r.incStop then [r.rto] else []) := by
  rw [All, ForEachList, loopList]
  rw [dif_neg (by rw [h]; norm_num), dif_neg (by rw [h]; norm_num)]
  rw [startList, stopList]
  simp

/-- C9 witness: the zero-step descriptor `[3, 7] step 0` emits exactly
its two inclusive endpoints. -/
theorem c9_witness : All ⟨true, false, true, false, 3, 7, 0⟩ = [3, 7] := by
  have h := c9_step_zero ⟨true, false, true, false, 3, 7, 0⟩ rfl
  simpa using h

end Rangetype

namespace Rangetype

theorem stopList_length_le (r : Range) : (stopList r).length ≤ 1 := by
  rw [stopList]
  split <;> simp

/-- The counted positive loop of `ForN` emits the first `n - c` values of
the corresponding `ForEach` loop (all of them, without early return, when
fewer than `n - c` remain). -/
theorem loopPosN_spec (f t s : ℚ) (hs : 0 < s) (n : ℤ) :
    ∀ x c, c < n →
      loopPosN f t s hs n x c =
        ((loopPos f t s hs x).take (n - c).toNat,
         decide ((n - c) ≤ ((loopPos f t s hs x).length : ℤ))) := by
  intro x c
  induction x, c using loopPosN.induct f t s hs n with
  | case1 x c h h2 =>
    intro hc
    have hn : n - c = 1 := by omega
    rw [loopPosN, if_pos h, if_pos h2, loopPos_cons f t s hs x h, hn]
    simp [Prod.ext_iff]
  | case2 x c h h2 ih =>
    intro hc
    have hc2 : c + 1 < n := by omega
    rw [loopPosN, if_pos h, if_neg h2]
    simp only [ih hc2]
    rw [loopPos_cons f t s hs x h]
    have hn : (n - c).toNat = (n - (c + 1)).toNat + 1 := by omega
    rw [hn]
    simp [Prod.ext_iff, List.take_succ_cons]
    constructor <;> omega
  | case3 x c h =>
    intro hc
    rw [loopPosN, if_neg h, loopPos_nil f t s hs x h]
    simp [Prod.ext_iff]
    omega

/-- The counted positive loop of `ForN` with an exhausted budget
(`counter >= n` already): it still emits the first loop value, if any,
before returning. -/
theorem loopPosN_spec_le (f t s : ℚ) (hs : 0 < s) (n : ℤ) (x : ℚ) (c : ℤ) (hcn : n ≤ c) :
    loopPosN f t s hs n x c =
      ((loopPos f t s hs x).take 1, decide (loopPos f t s hs x ≠ [])) := by
  by_cases h : x < t ∧ f < x
  · rw [loopPosN, if_pos h, if_pos (by omega), loopPos_cons f t s hs x h]
    simp
  · rw [loopPosN, if_neg h, loopPos_nil f t s hs x h]
    simp

/-- Negative-step analogue of `loopPosN_spec`. -/
theorem loopNegN_spec (f t s : ℚ) (hs : s < 0) (n : ℤ) :
    ∀ x c, c < n →
      loopNegN f t s hs n x c =
        ((loopNeg f t s hs x).take (n - c).toNat,
         decide ((n - c) ≤ ((loopNeg f t s hs x).length : ℤ))) := by
  intro x c
  induction x, c using loopNegN.induct f t s hs n with
  | case1 x c h h2 =>
    intro hc
    have hn : n - c = 1 := by omega
    rw [loopNegN, if_pos h, if_pos h2, loopNeg_cons f t s hs x h, hn]
    simp [Prod.ext_iff]
  | case2 x c h h2 ih =>
    intro hc
    have hc2 : c + 1 < n := by omega
    rw [loopNegN, if_pos h, if_neg h2]
    simp only [ih hc2]
    rw [loopNeg_cons f t s hs x h]
    have hn : (n - c).toNat = (n - (c + 1)).toNat + 1 := by omega
    rw [hn]
    simp [Prod.ext_iff, List.take_succ_cons]
    constructor <;> omega
  | case3 x c h =>
    intro hc
    rw [loopNegN, if_neg h, loopNeg_nil f t s hs x h]
    simp [Prod.ext_iff]
    omega

/-- Negative-step analogue of `loopPosN_spec_le`. -/
theorem loopNegN_spec_le (f t s : ℚ) (hs : s < 0) (n : ℤ) (x : ℚ) (c : ℤ) (hcn : n ≤ c) :
    loopNegN f t s hs n x c =
      ((loopNeg f t s hs x).take 1, decide (loopNeg f t s hs x ≠ [])) := by
  by_cases h : x > t ∧ x < f
  · rw [loopNegN, if_pos h, if_pos (by omega), loopNeg_cons f t s hs x h]
    simp
  · rw [loopNegN, if_neg h, loopNeg_nil f t s hs x h]
    simp

/-- The counted loops of `ForN` against the `ForEach` loop list, while the
counter is below `n`. -/
theorem loopListN_spec_lt (r : Range) (n c : ℤ) (h : c < n) :
    loopListN r n c =
      ((loopList r).take (n - c).toNat,
       decide ((n - c) ≤ ((loopList r).length : ℤ))) := by
  rw [loopListN, loopList]
  split_ifs with h1 h2
  · exact loopPosN_spec _ _ _ h1 n _ c h
  · exact loopNegN_spec _ _ _ h2 n _ c h
  · simp [Prod.ext_iff]
    omega

/-- The counted loops of `ForN` with an exhausted budget. -/
theorem loopListN_spec_le (r : Range) (n c : ℤ) (h : n ≤ c) :
    loopListN r n c = ((loopList r).take 1, decide (loopList r ≠ [])) := by
  rw [loopListN, loopList]
  split_ifs with h1 h2
  · exact loopPosN_spec_le _ _ _ h1 n _ c h
  · exact loopNegN_spec_le _ _ _ h2 n _ c h
  · simp

/-- After the start emission, `ForN` emits exactly the first `n - c`
remaining `ForEach` values (the loop values followed by the optional
stop value). -/
theorem forNRest_spec (r : Range) (n c : ℤ) (h : c < n) :
    forNRest r n c = (loopList r ++ stopList r).take (n - c).toNat := by
  rw [forNRest, loopListN_spec_lt r n c h]
  by_cases hle : (n - c) ≤ ((loopList r).length : ℤ)
  · simp only [hle, decide_True, if_true]
    have hle' : (n - c).toNat ≤ (loopList r).length := by omega
    rw [List.take_append_eq_append_take, Nat.sub_eq_zero_of_le hle']
    simp
  · simp only [hle, decide_False, Bool.false_eq_true, if_false]
    have hgt : (loopList r).length ≤ (n - c).toNat := by omega
    rw [List.take_of_length_le hgt, List.take_append_eq_append_take,
      List.take_of_length_le hgt,
      List.take_of_length_le (le_trans (stopList_length_le r) (by omega))]

/-- `ForN` with an already-exhausted budget still emits one value when the
remaining sequence is nonempty. -/
theorem forNRest_spec_le (r : Range) (n c : ℤ) (h : n ≤ c) :
    forNRest r n c = (loopList r ++ stopList r).take 1 := by
  rw [forNRest, loopListN_spec_le r n c h]
  by_cases hl : loopList r = []
  · simp only [hl, ne_eq, not_true_eq_false, decide_False, Bool.false_eq_true, if_false]
    simp [List.take_of_length_le (stopList_length_le r)]
  · simp only [hl, ne_eq, not_false_eq_true, decide_True, if_true]
    rw [List.take_append_eq_append_take]
    have h1 : 1 - (loopList r).length = 0 := by
      have := List.length_pos.mpr hl
      omega
    simp [h1]

/-- The central `ForN` characterisation: `ForN(n)` emits exactly the first
`max n 1` values of the `ForEach` sequence — `n` of them for `n ≥ 1`, but
ONE value (not zero) for `n ≤ 0`, because the source checks
`counter >= n` only after the first emission. -/
theorem forN_take (r : Range) (n : ℤ) :
    ForNList r n = (ForEachList r).take (max n 1).toNat := by
  rw [ForNList, ForEachList, startList]
  by_cases hst : r.incStart = true
  · have hg : r.incStart = true ∧ r.rfrom = r.rfrom := ⟨hst, rfl⟩
    rw [if_pos hg, if_pos hg]
    by_cases hn : n ≤ 1
    · rw [if_pos hn]
      have h1 : (max n 1).toNat = 1 := by omega
      rw [h1]
      simp
    · rw [if_neg hn, forNRest_spec r n 1 (by omega)]
      have h1 : (max n 1).toNat = (n - 1).toNat + 1 := by omega
      rw [h1]
      simp [List.take_succ_cons]
  · have hg : ¬(r.incStart = true ∧ r.rfrom = r.rfrom) := by simp [hst]
    rw [if_neg hg, if_neg hg]
    by_cases hn : 1 ≤ n
    · rw [forNRest_spec r n 0 (by omega)]
      have h1 : (max n 1).toNat = (n - 0).toNat := by omega
      rw [h1]
      simp
    · rw [forNRest_spec_le r n 0 (by omega)]
      have h1 : (max n 1).toNat = 1 := by omega
      rw [h1]
      simp

/-- C7 (amended): for every `n ≥ 1`, `Take(n)` emits exactly the first
`n` values of the iteration — hence at most `n`, and fewer (with no
error) when the sequence is exhausted first.  (For `n ≤ 0` the source
emits the first value instead of none; see the counterexample.) -/
theorem c7_amended_thm (r : Range) (n : ℤ) (h : 1 ≤ n) :
    Take r n = (All r).take n.toNat ∧ (Take r n).length ≤ n.toNat := by
  have hm : max n 1 = n := by omega
  have ht : Take r n = (All r).take n.toNat := by
    rw [Take, forN_take, hm, All]
  exact ⟨ht, by rw [ht]; exact List.length_take_le _ _⟩

/-- C7 witness: `Take(2)` on `[1,3]` is the 2-element prefix of `All`. -/
theorem c7_witness :
    (1:ℤ) ≤ 2 ∧
      (Take ⟨true, false, true, false, 1, 3, 1⟩ 2 =
          (All ⟨true, false, true, false, 1, 3, 1⟩).take (2:ℤ).toNat ∧
        (Take ⟨true, false, true, false, 1, 3, 1⟩ 2).length ≤ (2:ℤ).toNat) :=
  ⟨by norm_num, c7_amended_thm ⟨true, false, true, false, 1, 3, 1⟩ 2 (by norm_num)⟩

/-- C7 counterexample: the claim asserts `Take(0)` emits no values; on
the code, `ForN` checks `counter >= n` only AFTER emitting, so `Take(0)`
on the range `[1,3]` emits the start value: `[1] ≠ []`. -/
theorem c7_take_zero :
    Take ⟨true, false, true, false, 1, 3, 1⟩ 0 = [1] ∧
    Take ⟨true, false, true, false, 1, 3, 1⟩ 0 ≠ [] := by
  constructor
  · with_unfolding_all decide
  · with_unfolding_all decide

end Rangetype

namespace Rangetype

theorem stopFoldB_nil {σ : Type} (g : σ → ℚ → σ × Bool) (st : σ) :
    stopFoldB g st [] = (st, false) := rfl

theorem stopFoldB_cons {σ : Type} (g : σ → ℚ → σ × Bool) (st : σ) (v : ℚ) (vs : List ℚ) :
    stopFoldB g st (v :: vs) =
      (if (g st v).2 then ((g st v).1, true) else stopFoldB g (g st v).1 vs) := rfl

theorem stopFoldB_append {σ : Type} (g : σ → ℚ → σ × Bool) (st : σ) (a b : List ℚ) :
    stopFoldB g st (a ++ b) =
      (if (stopFoldB g st a).2 then stopFoldB g st a
       else stopFoldB g (stopFoldB g st a).1 b) := by
  induction a generalizing st with
  | nil => simp [stopFoldB_nil]
  | cons v vs ih =>
    simp only [List.cons_append, stopFoldB_cons]
    by_cases h : (g st v).2 <;> simp [h, ih]

/-- The breakable positive loop visits exactly the positive `ForEach`
loop values, stopping at the first break. -/
theorem loopPosB_fold {σ : Type} (f t s : ℚ) (hs : 0 < s) (g : σ → ℚ → σ × Bool) :
    ∀ x st, loopPosB f t s hs g x st = stopFoldB g st (loopPos f t s hs x) := by
  intro x
  induction x using loopPos.induct f t s hs with
  | case1 x h ih =>
    intro st
    rw [loopPosB, if_pos h, loopPos_cons f t s hs x h, stopFoldB_cons]
    by_cases hb : (g st x).2
    · simp [hb]
    · simp only [hb, Bool.false_eq_true, if_false]
      exact ih (g st x).1
  | case2 x h =>
    intro st
    rw [loopPosB, if_neg h, loopPos_nil f t s hs x h, stopFoldB_nil]

/-- Negative-step analogue of `loopPosB_fold`. -/
theorem loopNegB_fold {σ : Type} (f t s : ℚ) (hs : s < 0) (g : σ → ℚ → σ × Bool) :
    ∀ x st, loopNegB f t s hs g x st = stopFoldB g st (loopNeg f t s hs x) := by
  intro x
  induction x using loopNeg.induct f t s hs with
  | case1 x h ih =>
    intro st
    rw [loopNegB, if_pos h, loopNeg_cons f t s hs x h, stopFoldB_cons]
    by_cases hb : (g st x).2
    · simp [hb]
    · simp only [hb, Bool.false_eq_true, if_false]
      exact ih (g st x).1
  | case2 x h =>
    intro st
    rw [loopNegB, if_neg h, loopNeg_nil f t s hs x h, stopFoldB_nil]

theorem loopListB_fold {σ : Type} (r : Range) (g : σ → ℚ → σ × Bool) (st : σ) :
    loopListB r g st = stopFoldB g st (loopList r) := by
  rw [loopListB, loopList]
  split_ifs with h1 h2
  · exact loopPosB_fold _ _ _ h1 g _ st
  · exact loopNegB_fold _ _ _ h2 g _ st
  · rw [stopFoldB_nil]

/-- `ForEachWithBreak` is the breakable fold over the `ForEach` value
sequence: it visits the same values in the same order until the first
break. -/
theorem forEachWithBreak_fold {σ : Type} (r : Range) (g : σ → ℚ → σ × Bool) (s0 : σ) :
    ForEachWithBreak r g s0 = (stopFoldB g s0 (ForEachList r)).1 := by
  have hstart : stopFoldB g s0 (startList r) = startStepB r g s0 := by
    rw [startList, startStepB]
    split_ifs with h
    · rw [stopFoldB_cons, stopFoldB_nil]
      by_cases hb : (g s0 r.rfrom).2 = true
      · rw [if_pos hb]
        exact Prod.ext_iff.mpr ⟨rfl, hb.symm⟩
      · rw [if_neg hb]
        simp only [Bool.not_eq_true] at hb
        exact Prod.ext_iff.mpr ⟨rfl, hb.symm⟩
    · rw [stopFoldB_nil]
  have hstop : ∀ st : σ, stopFoldB g st (stopList r) =
      ((if r.incStop then (g st r.rto).1 else st),
       (if r.incStop then (g st r.rto).2 else false)) := by
    intro st
    rw [stopList]
    split_ifs with h
    · rw [stopFoldB_cons, stopFoldB_nil]
      by_cases hb : (g st r.rto).2 = true
      · rw [if_pos hb]
        exact Prod.ext_iff.mpr ⟨rfl, hb.symm⟩
      · rw [if_neg hb]
        simp only [Bool.not_eq_true] at hb
        exact Prod.ext_iff.mpr ⟨rfl, hb.symm⟩
    · rw [stopFoldB_nil]
  rw [ForEachWithBreak, ForEachList, List.append_assoc, stopFoldB_append, hstart]
  by_cases h1 : (startStepB r g s0).2 = true
  · simp [h1]
  · simp only [h1, Bool.false_eq_true, if_false]
    rw [stopFoldB_append, loopListB_fold]
    by_cases h2 : (stopFoldB g (startStepB r g s0).1 (loopList r)).2 = true
    · simp [h2]
    · simp only [h2, Bool.false_eq_true, if_false]
      rw [hstop]

/-- The breakable fold with `Find`'s callback locates the first value
`almostEqual` to `x` (and whether one exists). -/
theorem stopFoldB_findStep (x t : ℚ) :
    ∀ (vs : List ℚ) (st : Bool × ℚ),
      stopFoldB (findStep x t) st vs =
        ((vs.find? (fun v => almostEqual x v t)).elim st (fun v => (true, v)),
         (vs.find? (fun v => almostEqual x v t)).isSome) := by
  intro vs
  induction vs with
  | nil =>
    intro st
    simp [stopFoldB_nil]
  | cons v vs ih =>
    intro st
    rw [stopFoldB_cons]
    by_cases hb : almostEqual x v t = true
    · simp [findStep, hb, List.find?_cons_of_pos]
    · simp [findStep, hb, List.find?_cons_of_neg, ih]

/-- C10: `Find(x, t)` returns `found = false` together with the fixed
sentinel `-1.0` when no iterated value is within `t` of `x` (even when
-1.0 happens to be a member of the range — the sentinel does not depend
on the range), and otherwise `found = true` together with the FIRST
iterated value within `t` of `x`. -/
theorem c10_find_spec (r : Range) (x t : ℚ) :
    Find r x t =
      ((All r).find? (fun v => almostEqual x v t)).elim (false, -1) (fun v => (true, v)) := by
  rw [Find, forEachWithBreak_fold, All, stopFoldB_findStep]

end Rangetype
